import Mathlib

/-!
Shallow embedding of the content-normalization and pattern-recognition core of
the `v2ex_api_parser` repository (`src/index.js`), together with theorems
settling the specification claims about it.

Texts are modelled as `List Char`.  The JavaScript regular-expression based
string transformations are embedded as executable recursive functions whose
semantics follow the regex engine's leftmost, non-overlapping match behaviour
for the concrete patterns appearing in the source.  Scanning loops are written
with an explicit fuel argument (always instantiated with the text length by
the wrapper, which is always sufficient since every step consumes at least one
character) so that all definitions reduce in the kernel.
-/

namespace V2ex

/-- Convert a string literal to the `List Char` representation used throughout. -/
def lc (s : String) : List Char := s.toList

/-! ### Character classes -/

/-- The base58 alphabet `[1-9A-HJ-NP-Za-km-z]` used by the address regexes in
`extractSolanaAddressesWithBoundary` / `isValidSolanaAddress` (src/index.js:734,840). -/
def base58Char (c : Char) : Bool :=
  decide ((49 ≤ c.toNat ∧ c.toNat ≤ 57) ∨
    (65 ≤ c.toNat ∧ c.toNat ≤ 72) ∨ (74 ≤ c.toNat ∧ c.toNat ≤ 78) ∨
    (80 ≤ c.toNat ∧ c.toNat ≤ 90) ∨ (97 ≤ c.toNat ∧ c.toNat ≤ 107) ∨
    (109 ≤ c.toNat ∧ c.toNat ≤ 122))

/-- ASCII decimal digit, the `\d` class of the `/^\d+$/` purely-numeric test
in `isValidSolanaAddress` (src/index.js:843). -/
def digitChar (c : Char) : Bool := decide (48 ≤ c.toNat ∧ c.toNat ≤ 57)

/-- ASCII alphanumeric, the `[A-Za-z0-9]` class of the script-embedded address
regex in `extractSolanaAddress` (src/index.js:541). -/
def alnumChar (c : Char) : Bool :=
  decide ((48 ≤ c.toNat ∧ c.toNat ≤ 57) ∨ (65 ≤ c.toNat ∧ c.toNat ≤ 90) ∨
    (97 ≤ c.toNat ∧ c.toNat ≤ 122))

/-- The `[a-zA-Z0-9_-]` label class of the `.sol` domain regex
(src/index.js:690). -/
def labelChar (c : Char) : Bool :=
  alnumChar c || decide (c = '_') || decide (c = '-')

/-- JavaScript `\s` restricted to its ASCII members (space, tab, newline,
carriage return, vertical tab, form feed); the texts handled by this
repository's regexes only exercise these. -/
def jsSpace (c : Char) : Bool :=
  decide (c = ' ' ∨ c = '\t' ∨ c = '\n' ∨ c = '\r' ∨ c.toNat = 11 ∨ c.toNat = 12)

/-- ASCII lower-casing, modelling the effect of the `/i` regex flag on the
ASCII patterns used by `isPartOfUrl` and `removeUrlTransactionSignatures`. -/
def lowerChar (c : Char) : Char :=
  if 65 ≤ c.toNat ∧ c.toNat ≤ 90 then Char.ofNat (c.toNat + 32) else c

/-- Lower-case a whole text. -/
def lowerAll (l : List Char) : List Char := l.map lowerChar

/-! ### Substring search -/

/-- Boolean substring test: does `pat` occur contiguously inside `l`?
Models JavaScript `String.prototype.includes` and regex literal-substring
tests. -/
def containsSub (pat : List Char) : List Char → Bool
  | [] => pat.isPrefixOf []
  | c :: rest => pat.isPrefixOf (c :: rest) || containsSub pat rest

theorem containsSub_correct (pat l : List Char) :
    containsSub pat l = true ↔ pat <:+: l := by
  induction l with
  | nil =>
    simp [containsSub, List.isPrefixOf_iff_prefix]
  | cons c rest ih =>
    simp [containsSub, List.isPrefixOf_iff_prefix, ih, List.infix_cons_iff]

theorem containsSub_mono {pat l₁ l₂ : List Char} (h : l₁ <:+: l₂)
    (hc : containsSub pat l₁ = true) : containsSub pat l₂ = true := by
  rw [containsSub_correct] at hc ⊢
  exact hc.trans h

theorem not_containsSub_mono {pat l₁ l₂ : List Char} (h : l₁ <:+: l₂)
    (hc : containsSub pat l₂ = false) : containsSub pat l₁ = false := by
  cases hh : containsSub pat l₁ with
  | false => rfl
  | true => exact absurd (containsSub_mono h hh) (by simp [hc])

/-! ### Global literal replacement

Models `String.prototype.replace` with a global literal pattern: leftmost,
non-overlapping occurrences of `pat` are replaced by `rep`. -/

def replaceAllF (pat rep : List Char) : Nat → List Char → List Char
  | _, [] => []
  | 0, l => l
  | fuel + 1, c :: rest =>
    if pat.isPrefixOf (c :: rest) ∧ pat ≠ [] then
      rep ++ replaceAllF pat rep fuel ((c :: rest).drop pat.length)
    else
      c :: replaceAllF pat rep fuel rest

/-- `text.replace(pat, rep)` for a global literal pattern `pat`. -/
def replaceAll (pat rep l : List Char) : List Char := replaceAllF pat rep l.length l

theorem replaceAllF_of_not_contains (pat rep : List Char) (fuel : Nat) :
    ∀ l : List Char, containsSub pat l = false → replaceAllF pat rep fuel l = l := by
  induction fuel with
  | zero => intro l _; cases l <;> rfl
  | succ fuel ih =>
    intro l h
    cases l with
    | nil => rfl
    | cons c rest =>
      rw [containsSub] at h
      rw [Bool.or_eq_false_iff] at h
      rw [replaceAllF, if_neg, ih rest h.2]
      intro hcon
      exact absurd hcon.1 (by simp [h.1])

theorem replaceAll_of_not_contains (pat rep : List Char) (l : List Char)
    (h : containsSub pat l = false) : replaceAll pat rep l = l :=
  replaceAllF_of_not_contains pat rep l.length l h

/-! ### Fragment Normalizer (src/index.js:189-197, 248-256)

The normalization pipeline applied to an HTML fragment: `<br>` variants
become newlines, remaining tags are stripped, the five entities are decoded
in source order, and the result is trimmed. -/

/-- Match the `/<br\s*\/?>/gi` pattern at the head of the text; on success
return the remainder after the match. -/
def brTail (l : List Char) : Option (List Char) :=
  match l with
  | '<' :: b :: r :: rest =>
    if lowerChar b = 'b' ∧ lowerChar r = 'r' then
      match rest.dropWhile jsSpace with
      | '>' :: t => some t
      | '/' :: '>' :: t => some t
      | _ => none
    else none
  | _ => none

def replaceBrF : Nat → List Char → List Char
  | _, [] => []
  | 0, l => l
  | fuel + 1, c :: rest =>
    match brTail (c :: rest) with
    | some t => '\n' :: replaceBrF fuel t
    | none => c :: replaceBrF fuel rest

/-- Replace every `<br\s*\/?>` occurrence (case-insensitive) with a newline:
the `.replace(/<br\s*\/?>/gi, '\n')` step. -/
def replaceBr (l : List Char) : List Char := replaceBrF l.length l

def stripTagsF : Nat → List Char → List Char
  | _, [] => []
  | 0, l => l
  | fuel + 1, c :: rest =>
    if c = '<' ∧ rest.dropWhile (fun x => !decide (x = '>')) ≠ [] then
      stripTagsF fuel (rest.dropWhile (fun x => !decide (x = '>'))).tail
    else
      c :: stripTagsF fuel rest

/-- Strip every `<[^>]*>` occurrence: the `.replace(/<[^>]*>/g, '')` step.
A `<` with no later `>` fails to match and is kept. -/
def stripTags (l : List Char) : List Char := stripTagsF l.length l

/-- Decode the five entities in the order the source applies them:
`&nbsp;`, `&lt;`, `&gt;`, `&amp;`, `&quot;` (src/index.js:192-196). -/
def decodeEntities (l : List Char) : List Char :=
  replaceAll (lc "&quot;") (lc "\"")
    (replaceAll (lc "&amp;") (lc "&")
      (replaceAll (lc "&gt;") (lc ">")
        (replaceAll (lc "&lt;") (lc "<")
          (replaceAll (lc "&nbsp;") (lc " ") l))))

/-- JavaScript `String.prototype.trim` on the modelled whitespace class. -/
def trim (l : List Char) : List Char :=
  ((l.dropWhile jsSpace).reverse.dropWhile jsSpace).reverse

/-- The whole normalization pipeline of src/index.js:189-197. -/
def normalize (l : List Char) : List Char :=
  trim (decodeEntities (stripTags (replaceBr l)))

/-! ### Markup-free fragments

`hasTag l` holds iff the tag regex `<[^>]*>` (and a fortiori the `<br>` regex)
has a match in `l`: some `<` is followed, later, by some `>`. -/

def hasTag (l : List Char) : Bool :=
  (l.dropWhile (fun x => !decide (x = '<'))).any (fun x => decide (x = '>'))

theorem dropWhile_head_false {p : Char → Bool} :
    ∀ {l : List Char} {x : Char} {xs : List Char},
      l.dropWhile p = x :: xs → p x = false := by
  intro l
  induction l with
  | nil => intro x xs h; cases h
  | cons c rest ih =>
    intro x xs h
    rw [List.dropWhile_cons] at h
    split at h
    · exact ih h
    · cases h
      rename_i hc
      exact Bool.of_not_eq_true hc

theorem dropWhile_of_head_false {p : Char → Bool} {l : List Char} {x : Char}
    (hh : l.head? = some x) (hx : p x = false) : l.dropWhile p = l := by
  cases l with
  | nil => cases hh
  | cons c rest =>
    cases hh
    rw [List.dropWhile_cons, if_neg]
    simp [hx]

theorem dropWhile_idem {p : Char → Bool} (l : List Char) :
    (l.dropWhile p).dropWhile p = l.dropWhile p := by
  cases h : l.dropWhile p with
  | nil => rfl
  | cons x xs =>
    rw [List.dropWhile_cons, if_neg]
    simp [dropWhile_head_false h]

theorem hasTag_iff (l : List Char) :
    hasTag l = true ↔ ∃ l₁ l₂, l = l₁ ++ '<' :: l₂ ∧ '>' ∈ l₂ := by
  induction l with
  | nil =>
    simp [hasTag]
  | cons c rest ih =>
    by_cases hc : c = '<'
    · subst hc
      have hdw : (('<' :: rest).dropWhile (fun x => !decide (x = '<'))) =
          '<' :: rest := by
        rw [List.dropWhile_cons]
        simp
      constructor
      · intro h
        rw [hasTag, hdw, List.any_eq_true] at h
        obtain ⟨x, hx, hgt⟩ := h
        rw [decide_eq_true_iff] at hgt
        subst hgt
        rcases List.mem_cons.mp hx with h1 | h2
        · cases h1
        · exact ⟨[], rest, rfl, h2⟩
      · intro ⟨l₁, l₂, heq, hmem⟩
        rw [hasTag, hdw, List.any_eq_true]
        refine ⟨'>', ?_, by simp⟩
        rcases l₁ with _ | ⟨a, l₁'⟩
        · simp only [List.nil_append] at heq
          cases heq
          exact List.mem_cons_of_mem _ hmem
        · rw [List.cons_append] at heq
          injection heq with h1 h2
          refine List.mem_cons_of_mem _ ?_
          rw [h2]
          exact List.mem_append_right _ (List.mem_cons_of_mem _ hmem)
    · have hstep : hasTag (c :: rest) = hasTag rest := by
        rw [hasTag, hasTag, List.dropWhile_cons, if_pos]
        simp [hc]
      rw [hstep, ih]
      constructor
      · intro ⟨l₁, l₂, heq, hmem⟩
        exact ⟨c :: l₁, l₂, by rw [heq]; rfl, hmem⟩
      · intro ⟨l₁, l₂, heq, hmem⟩
        rcases l₁ with _ | ⟨a, l₁'⟩
        · simp only [List.nil_append] at heq
          cases heq
          exact absurd rfl hc
        · simp only [List.cons_append] at heq
          cases heq
          exact ⟨l₁', l₂, rfl, hmem⟩

theorem hasTag_mono {l₁ l₂ : List Char} (h : l₁ <:+: l₂)
    (hc : hasTag l₂ = false) : hasTag l₁ = false := by
  cases hh : hasTag l₁ with
  | false => rfl
  | true =>
    exfalso
    obtain ⟨a, b, hab, hmem⟩ := (hasTag_iff l₁).mp hh
    obtain ⟨u, v, huv⟩ := h
    have : hasTag l₂ = true := by
      rw [hasTag_iff]
      refine ⟨u ++ a, b ++ v, ?_, List.mem_append_left _ hmem⟩
      rw [← huv, hab]
      simp
    rw [this] at hc
    cases hc

theorem hasTag_cons_false {c : Char} {rest : List Char}
    (h : hasTag (c :: rest) = false) : hasTag rest = false :=
  hasTag_mono ⟨[c], [], by simp⟩ h

theorem mem_gt_of_hasTag_false {rest : List Char}
    (h : hasTag ('<' :: rest) = false) : '>' ∉ rest := by
  intro hmem
  have : hasTag ('<' :: rest) = true := (hasTag_iff _).mpr ⟨[], rest, rfl, hmem⟩
  rw [this] at h
  cases h

theorem stripTagsF_of_no_tag (fuel : Nat) :
    ∀ l : List Char, hasTag l = false → stripTagsF fuel l = l := by
  induction fuel with
  | zero => intro l _; cases l <;> rfl
  | succ fuel ih =>
    intro l h
    cases l with
    | nil => rfl
    | cons c rest =>
      rw [stripTagsF, if_neg, ih rest (hasTag_cons_false h)]
      intro ⟨hc, hdrop⟩
      subst hc
      have hnogt := mem_gt_of_hasTag_false h
      apply hdrop
      rw [List.dropWhile_eq_nil_iff]
      intro x hx
      simp only [Bool.not_eq_true']
      rw [decide_eq_false_iff_not]
      intro hxgt
      exact hnogt (hxgt ▸ hx)

theorem stripTags_of_no_tag (l : List Char) (h : hasTag l = false) :
    stripTags l = l :=
  stripTagsF_of_no_tag l.length l h

theorem brTail_hasTag {l t : List Char} (h : brTail l = some t) :
    hasTag l = true := by
  unfold brTail at h
  split at h
  · rename_i b r rest
    split at h
    · rw [hasTag_iff]
      split at h
      · rename_i hmatch
        refine ⟨[], b :: r :: rest, rfl, ?_⟩
        have : '>' ∈ rest.dropWhile jsSpace := by rw [hmatch]; simp
        exact List.mem_cons_of_mem _ (List.mem_cons_of_mem _
          ((List.dropWhile_sublist jsSpace).subset this))
      · rename_i hmatch
        refine ⟨[], b :: r :: rest, rfl, ?_⟩
        have : '>' ∈ rest.dropWhile jsSpace := by rw [hmatch]; simp
        exact List.mem_cons_of_mem _ (List.mem_cons_of_mem _
          ((List.dropWhile_sublist jsSpace).subset this))
      · cases h
    · cases h
  · cases h

theorem replaceBrF_of_no_tag (fuel : Nat) :
    ∀ l : List Char, hasTag l = false → replaceBrF fuel l = l := by
  induction fuel with
  | zero => intro l _; cases l <;> rfl
  | succ fuel ih =>
    intro l h
    cases l with
    | nil => rfl
    | cons c rest =>
      rw [replaceBrF]
      cases hb : brTail (c :: rest) with
      | some t => rw [brTail_hasTag hb] at h; cases h
      | none => rw [ih rest (hasTag_cons_false h)]

theorem replaceBr_of_no_tag (l : List Char) (h : hasTag l = false) :
    replaceBr l = l :=
  replaceBrF_of_no_tag l.length l h

/-- The five decoded entity strings, in the order the source decodes them. -/
def entityList : List (List Char) :=
  [lc "&nbsp;", lc "&lt;", lc "&gt;", lc "&amp;", lc "&quot;"]

/-- A fragment is entity-free when none of the five entities occurs in it. -/
def entityFree (l : List Char) : Bool :=
  entityList.all (fun e => !containsSub e l)

theorem decodeEntities_of_entityFree (l : List Char) (h : entityFree l = true) :
    decodeEntities l = l := by
  rw [entityFree, entityList, List.all_eq_true] at h
  have h1 := h (lc "&nbsp;") (by simp)
  have h2 := h (lc "&lt;") (by simp)
  have h3 := h (lc "&gt;") (by simp)
  have h4 := h (lc "&amp;") (by simp)
  have h5 := h (lc "&quot;") (by simp)
  simp only [Bool.not_eq_true'] at h1 h2 h3 h4 h5
  rw [decodeEntities]
  rw [replaceAll_of_not_contains _ _ _ h1, replaceAll_of_not_contains _ _ _ h2,
    replaceAll_of_not_contains _ _ _ h3, replaceAll_of_not_contains _ _ _ h4,
    replaceAll_of_not_contains _ _ _ h5]

theorem entityFree_mono {l₁ l₂ : List Char} (h : l₁ <:+: l₂)
    (hc : entityFree l₂ = true) : entityFree l₁ = true := by
  rw [entityFree, List.all_eq_true] at hc ⊢
  intro e he
  have := hc e he
  simp only [Bool.not_eq_true'] at this ⊢
  exact not_containsSub_mono h this

theorem normalize_eq_trim {l : List Char} (ht : hasTag l = false)
    (he : entityFree l = true) : normalize l = trim l := by
  rw [normalize, replaceBr_of_no_tag l ht, stripTags_of_no_tag l ht,
    decodeEntities_of_entityFree l he]

theorem trim_sub (l : List Char) : trim l <:+: l := by
  have h1 : l.dropWhile jsSpace <:+ l := List.dropWhile_suffix _
  have h2 : ((l.dropWhile jsSpace).reverse.dropWhile jsSpace) <:+
      (l.dropWhile jsSpace).reverse := List.dropWhile_suffix _
  have h3 : trim l <+: l.dropWhile jsSpace := by
    rw [← List.reverse_suffix]
    rw [trim]
    simpa using h2
  exact h3.isInfix.trans h1.isInfix

theorem trim_idem (l : List Char) : trim (trim l) = trim l := by
  set g := l.dropWhile jsSpace with hg
  set R := g.reverse.dropWhile jsSpace with hR
  have htriml : trim l = R.reverse := rfl
  cases hcase : R with
  | nil =>
    rw [htriml, hcase]
    rfl
  | cons x xs =>
    have hgetlast : R.getLast? = g.head? := by
      obtain ⟨w, hw⟩ : R <:+ g.reverse := hR ▸ List.dropWhile_suffix _
      have h1 : (w ++ R).getLast? = R.getLast? :=
        List.getLast?_append_of_ne_nil w (by rw [hcase]; simp)
      rw [hw, List.getLast?_reverse] at h1
      exact h1.symm
    have hghead : ∃ y, g.head? = some y ∧ jsSpace y = false := by
      cases hgc : g with
      | nil =>
        exfalso
        rw [hgc] at hR
        simp only [List.reverse_nil, List.dropWhile_nil] at hR
        rw [hR] at hcase
        cases hcase
      | cons y ys =>
        exact ⟨y, rfl, dropWhile_head_false (hg.symm.trans hgc)⟩
    obtain ⟨y, hy1, hy2⟩ := hghead
    have hheadRrev : R.reverse.head? = some y := by
      rw [List.head?_reverse, hgetlast, hy1]
    rw [trim, htriml]
    rw [dropWhile_of_head_false hheadRrev hy2]
    rw [List.reverse_reverse]
    rw [hR, dropWhile_idem]

/-- C3, counterexample: the claim says `&amp;` is decoded last, so the literal
text `&amp;quot;` would decode exactly once, to `&quot;`.  In the source the
`&quot;` replacement runs after the `&amp;` replacement (src/index.js:195-196),
so `&amp;quot;` is double-unescaped to `"`: the claim is false on the code. -/
theorem claim_c3_counterexample :
    normalize (lc "&amp;quot;") ≠ lc "&quot;" ∧
    normalize (lc "&amp;quot;") = lc "\"" := by
  constructor
  · decide
  · decide

/-- C3, amended: normalization decodes exactly the entities `&nbsp;`, `&lt;`,
`&gt;`, `&amp;`, `&quot;`, in that source order.  `&amp;` is decoded after
`&nbsp;`/`&lt;`/`&gt;` — so `&amp;nbsp;`, `&amp;lt;`, `&amp;gt;` each decode
exactly once — but before `&quot;`, so `&amp;quot;` is decoded twice,
yielding `"` rather than the literal `&quot;`. -/
theorem claim_c3_amended :
    normalize (lc "&amp;nbsp;") = lc "&nbsp;" ∧
    normalize (lc "&amp;lt;") = lc "&lt;" ∧
    normalize (lc "&amp;gt;") = lc "&gt;" ∧
    normalize (lc "&amp;amp;") = lc "&amp;" ∧
    normalize (lc "&amp;quot;") = lc "\"" := by
  refine ⟨by decide, by decide, by decide, by decide, by decide⟩

/-- C9: for every fragment `f` with no markup tag (no `<` later followed by
`>`, so neither the `<br>` regex nor the tag-strip regex matches) and no
occurrence of the five known entities, normalization is idempotent:
`normalize (normalize f) = normalize f`. -/
theorem claim_c9 (f : List Char) (ht : hasTag f = false)
    (he : entityFree f = true) : normalize (normalize f) = normalize f := by
  have h1 : normalize f = trim f := normalize_eq_trim ht he
  have ht2 : hasTag (trim f) = false := hasTag_mono (trim_sub f) ht
  have he2 : entityFree (trim f) = true := entityFree_mono (trim_sub f) he
  rw [h1, normalize_eq_trim ht2 he2, trim_idem]

/-- Witness for C9 at the concrete fragment `"  hello\nworld "`. -/
theorem claim_c9_witness :
    hasTag (lc "  hello\nworld ") = false ∧
    entityFree (lc "  hello\nworld ") = true ∧
    normalize (normalize (lc "  hello\nworld ")) =
      normalize (lc "  hello\nworld ") :=
  ⟨by decide, by decide, claim_c9 (lc "  hello\nworld ") (by decide) (by decide)⟩

/-! ### Pattern Recognizer: base58 address scan (src/index.js:727-758)

The regex `(?:^|[^1-9A-HJ-NP-Za-km-z])([1-9A-HJ-NP-Za-km-z]{32,44})(?![1-9A-HJ-NP-Za-km-z])`
run with `exec` over the text captures exactly the maximal base58 runs whose
length lies in `[32,44]`: the left alternation requires start-of-text or a
non-base58 character before the run, greediness plus the negative lookahead
force the captured run to be the whole maximal run, and a maximal run longer
than 44 yields no match at any start position inside it.  `base58Runs` lists
every maximal base58 run with its start index. -/

def runsAuxF : Nat → Nat → List Char → List (Nat × List Char)
  | _, _, [] => []
  | 0, _, _ => []
  | fuel + 1, i, c :: rest =>
    if base58Char c then
      (i, c :: rest.takeWhile base58Char) ::
        runsAuxF fuel (i + (c :: rest.takeWhile base58Char).length)
          (rest.dropWhile base58Char)
    else
      runsAuxF fuel (i + 1) rest

/-- All maximal base58 runs of the text, with start indices. -/
def base58Runs (l : List Char) : List (Nat × List Char) := runsAuxF l.length 0 l

/-- The candidates captured by the boundary regex: maximal runs of length
32 to 44. -/
def boundaryCandidates (l : List Char) : List (Nat × List Char) :=
  (base58Runs l).filter (fun p => decide (32 ≤ p.2.length) && decide (p.2.length ≤ 44))

/-- `isValidSolanaAddress` (src/index.js:833-846): length in `[32,44]`, all
base58 characters (`/^[1-9A-HJ-NP-Za-km-z]+$/`), and not purely numeric
(`/^\d+$/`). -/
def isValidSolanaAddress (a : List Char) : Bool :=
  if a.isEmpty then false
  else if decide (a.length < 32) || decide (44 < a.length) then false
  else if !a.all base58Char then false
  else if a.all digitChar then false
  else true

/-- The URL-marker patterns of `isPartOfUrl` (src/index.js:773-779), tested
case-insensitively against the window text. -/
def urlPatternHit (t : List Char) : Bool :=
  containsSub (lc "http://") t || containsSub (lc "https://") t ||
  containsSub (lc "www.") t ||
  containsSub (lc ".com") t || containsSub (lc ".org") t ||
  containsSub (lc ".net") t || containsSub (lc ".io") t ||
  containsSub (lc ".co") t || containsSub (lc ".me") t ||
  containsSub (lc ".tv") t || containsSub (lc ".app") t ||
  containsSub (lc ".xyz") t || containsSub (lc ".sol") t ||
  containsSub (lc ".scan") t || containsSub (lc ".explorer") t ||
  containsSub (lc "/tx/") t || containsSub (lc "/address/") t

/-- `isPartOfUrl` (src/index.js:767-790): inspect up to 200 characters before
and after the candidate; immediate-neighbour check first, then the URL-marker
patterns on the combined window. -/
def isPartOfUrl (text : List Char) (startIndex addressLength : Nat) : Bool :=
  -- `immediateBefore` is `text.substring(max(0, startIndex-4), startIndex)`;
  -- the window is `beforeText ++ afterText` with 200 characters each side.
  if (text.take startIndex).drop (startIndex - 4) = lc "/tx/" ∨
      (text.take startIndex).drop (startIndex - 4) = lc "tx/" ∨
      (text.take startIndex).drop (startIndex - 4) = lc "/address/" ∨
      (text.take startIndex).drop (startIndex - 4) = lc "address/" then
    true
  else
    urlPatternHit (lowerAll (((text.take startIndex).drop (startIndex - 200)) ++
      ((text.drop (startIndex + addressLength)).take 200)))

/-- First-occurrence-order deduplication, as performed by
`[...new Set(addresses)]`. -/
def dedupSeen {α : Type _} [DecidableEq α] (seen : List α) : List α → List α
  | [] => []
  | x :: rest =>
    if x ∈ seen then dedupSeen seen rest else x :: dedupSeen (x :: seen) rest

/-- Deduplicate preserving first occurrences. -/
def firstDedup {α : Type _} [DecidableEq α] (l : List α) : List α :=
  dedupSeen [] l

/-- `extractSolanaAddressesWithBoundary` (src/index.js:727-758): boundary
regex candidates, filtered by validity and URL context, deduplicated. -/
def extractSolanaAddressesWithBoundary (text : List Char) : List (List Char) :=
  firstDedup (((boundaryCandidates text).filter
    (fun p => isValidSolanaAddress p.2 && !isPartOfUrl text p.1 p.2.length)).map
      Prod.snd)

/-! ### Pattern Recognizer: `.sol` domain scan (src/index.js:683-720) -/

/-- Match `([a-zA-Z0-9_-]+\.sol)(?=\s|$)` at the head of the text (the
lookbehind `(?<!\S)` is handled by the scanner's boundary flag). -/
def domainAt (l : List Char) : Option (List Char) :=
  let lbl := l.takeWhile labelChar
  let rest := l.dropWhile labelChar
  if lbl ≠ [] ∧ rest.take 4 = lc ".sol" ∧ Option.all jsSpace (rest.drop 4).head? = true then
    some (lbl ++ lc ".sol")
  else none

/-- Scan for all matches of `/(?<!\S)([a-zA-Z0-9_-]+\.sol)(?=\s|$)/g`: the
boundary flag records whether the previous character was whitespace (or the
scan is at the start).  Matches never overlap, since every match is followed
by whitespace or the end of text while it contains no whitespace itself. -/
def scanDomains : Bool → List Char → List (List Char)
  | _, [] => []
  | bnd, c :: rest =>
    match (if bnd then domainAt (c :: rest) else none) with
    | some d => d :: scanDomains (jsSpace c) rest
    | none => scanDomains (jsSpace c) rest

/-- `String.prototype.replace` with a literal pattern (first occurrence only),
used as `domain.replace('.sol', '')` in the domain filter. -/
def replaceFirst (pat rep : List Char) : List Char → List Char
  | [] => []
  | c :: rest =>
    if pat.isPrefixOf (c :: rest) ∧ pat ≠ [] then
      rep ++ (c :: rest).drop pat.length
    else
      c :: replaceFirst pat rep rest

/-- `extractSolanaDomainsFromText` (src/index.js:683-720): regex matches,
filtered (length ≥ 4, `.sol` suffix, label shape), deduplicated. -/
def extractSolanaDomainsFromText (text : List Char) : List (List Char) :=
  firstDedup ((scanDomains true text).filter (fun d =>
    decide (4 ≤ d.length) && (lc ".sol").isSuffixOf d &&
    (!(replaceFirst (lc ".sol") [] d).isEmpty &&
      (replaceFirst (lc ".sol") [] d).all labelChar)))

/-- The result record of `extractSolanaAddressesFromText` (src/index.js:663-676). -/
structure TextSolanaInfo where
  solanaAddresses : List (List Char)
  solanaDomains : List (List Char)
deriving DecidableEq

/-- `extractSolanaAddressesFromText` (src/index.js:663-676): boundary-based
address extraction plus domain extraction.  (Note: this call site applies no
transaction-URL pre-filter; that pre-filter is only applied on the profile
page path, in `extractSolanaAddress`.) -/
def extractSolanaAddressesFromText (text : List Char) : TextSolanaInfo :=
  { solanaAddresses := extractSolanaAddressesWithBoundary text
    solanaDomains := extractSolanaDomainsFromText text }

/-! ### Soundness of the run scanner

Every listed run is a nonempty all-base58 slice of the text that is maximal:
the character before it (if any) and the character after it (if any) are not
base58. -/

/-- The properties a sound run `(k + d, r)` of text `l` satisfies. -/
def RunSound (l : List Char) (d : Nat) (r : List Char) : Prop :=
  r ≠ [] ∧ r.all base58Char = true ∧ (l.drop d).take r.length = r ∧
    (d = 0 ∨ ∃ c, l[d - 1]? = some c ∧ base58Char c = false) ∧
    (∀ c, l[d + r.length]? = some c → base58Char c = false)

theorem runsAuxF_sound (fuel : Nat) :
    ∀ (l : List Char) (k i : Nat) (r : List Char),
      (i, r) ∈ runsAuxF fuel k l → ∃ d, i = k + d ∧ RunSound l d r := by
  induction fuel with
  | zero =>
    intro l k i r h
    cases l <;> simp [runsAuxF] at h
  | succ fuel ih =>
    intro l k i r h
    cases l with
    | nil => simp [runsAuxF] at h
    | cons c rest =>
      rw [runsAuxF] at h
      by_cases hc : base58Char c = true
      · rw [if_pos hc] at h
        rcases List.mem_cons.mp h with hhead | htail
        · -- the run starting at this character
          injection hhead with hi hr
          subst hr
          set tw := rest.takeWhile base58Char with htwdef
          set dw := rest.dropWhile base58Char with hdwdef
          have hsplit : tw ++ dw = rest := List.takeWhile_append_dropWhile _ _
          refine ⟨0, by omega, ?_, ?_, ?_, Or.inl rfl, ?_⟩
          · simp
          · rw [List.all_cons, hc, Bool.true_and, List.all_eq_true]
            intro x hx
            exact List.mem_takeWhile_imp (htwdef ▸ hx)
          · have htw : tw = rest.take tw.length :=
              List.prefix_iff_eq_take.mp (htwdef ▸ List.takeWhile_prefix _)
            simp only [List.drop_zero, List.length_cons, List.take_succ_cons]
            rw [← htw]
          · intro x hx
            simp only [Nat.zero_add, List.length_cons] at hx
            rw [List.getElem?_cons_succ, ← hsplit,
              List.getElem?_append_right (Nat.le_refl _), Nat.sub_self] at hx
            cases hdw : dw with
            | nil => rw [hdw] at hx; cases hx
            | cons y ys =>
              rw [hdw, List.getElem?_cons_zero] at hx
              cases hx
              exact dropWhile_head_false (hdwdef.symm.trans hdw)
        · -- a later run, inside the dropWhile remainder
          obtain ⟨d', hid, hr⟩ := ih (rest.dropWhile base58Char) _ i r htail
          set tw := rest.takeWhile base58Char with htwdef
          set dw := rest.dropWhile base58Char with hdwdef
          obtain ⟨hne, hall, hslice, hleft, hright⟩ := hr
          have hsplit : tw ++ dw = rest := List.takeWhile_append_dropWhile _ _
          have hd'pos : d' ≠ 0 := by
            intro hd0
            rw [hd0, List.drop_zero] at hslice
            cases hrr : r with
            | nil => exact hne hrr
            | cons x xs =>
              rw [hrr] at hslice
              cases hdw2 : dw with
              | nil => rw [hdw2] at hslice; simp at hslice
              | cons y ys =>
                rw [hdw2] at hslice
                simp only [List.length_cons, List.take_succ_cons] at hslice
                injection hslice with h1 h2
                have hyfalse : base58Char y = false := dropWhile_head_false hdw2
                have : base58Char x = true := by
                  rw [hrr, List.all_cons] at hall
                  exact (Bool.and_eq_true_iff.mp hall).1
                rw [← h1, hyfalse] at this
                cases this
          refine ⟨1 + tw.length + d', by simp only [List.length_cons] at hid; omega,
            hne, hall, ?_, ?_, ?_⟩
          · -- slice transfers through the cons and the takeWhile prefix
            have : (c :: rest).drop (1 + tw.length + d') = dw.drop d' := by
              have h1 : 1 + tw.length + d' = (tw.length + d') + 1 := by omega
              rw [h1, List.drop_succ_cons]
              rw [← hsplit, List.drop_append]
            rw [this]
            exact hslice
          · -- left boundary
            refine Or.inr ?_
            obtain ⟨d'', rfl⟩ : ∃ d'', d' = d'' + 1 :=
              ⟨d' - 1, by omega⟩
            rcases hleft with h0 | ⟨ch, hch, hchf⟩
            · omega
            · refine ⟨ch, ?_, hchf⟩
              have hpos : 1 + tw.length + (d'' + 1) - 1 = (tw.length + (d'' + 1) - 1) + 1 := by
                omega
              rw [hpos, List.getElem?_cons_succ, ← hsplit,
                List.getElem?_append_right (by omega)]
              have : tw.length + (d'' + 1) - 1 - tw.length = d'' + 1 - 1 := by omega
              rw [this]
              exact hch
          · -- right boundary
            intro ch hch
            apply hright ch
            have hpos : 1 + tw.length + d' + r.length = (tw.length + (d' + r.length)) + 1 := by
              omega
            rw [hpos, List.getElem?_cons_succ, ← hsplit,
              List.getElem?_append_right (by omega)] at hch
            have : tw.length + (d' + r.length) - tw.length = d' + r.length := by omega
            rw [this] at hch
            exact hch
      · rw [if_neg hc] at h
        obtain ⟨d', hid, hr⟩ := ih rest _ i r h
        obtain ⟨hne, hall, hslice, hleft, hright⟩ := hr
        refine ⟨d' + 1, by omega, hne, hall, ?_, ?_, ?_⟩
        · rw [List.drop_succ_cons]
          exact hslice
        · refine Or.inr ?_
          cases d' with
          | zero =>
            exact ⟨c, by simp, by simpa using hc⟩
          | succ e =>
            rcases hleft with h0 | ⟨ch, hch, hchf⟩
            · cases h0
            · refine ⟨ch, ?_, hchf⟩
              have heq : e + 1 + 1 - 1 = e + 1 := by omega
              rw [heq, List.getElem?_cons_succ]
              have heq2 : e + 1 - 1 = e := by omega
              rw [heq2] at hch
              exact hch
        · intro ch hch
          apply hright ch
          have : d' + 1 + r.length = (d' + r.length) + 1 := by omega
          rw [this, List.getElem?_cons_succ] at hch
          exact hch

theorem RunSound.getElem {l : List Char} {d : Nat} {r : List Char}
    (h : RunSound l d r) {j : Nat} (hj : j < r.length) : l[d + j]? = r[j]? := by
  obtain ⟨-, -, hslice, -, -⟩ := h
  calc l[d + j]? = (l.drop d)[j]? := (List.getElem?_drop l d j).symm
    _ = ((l.drop d).take r.length)[j]? := (List.getElem?_take_of_lt hj).symm
    _ = r[j]? := by rw [hslice]

theorem RunSound.base58_at {l : List Char} {d : Nat} {r : List Char}
    (h : RunSound l d r) {j : Nat} (hj : j < r.length) :
    ∃ ch, l[d + j]? = some ch ∧ base58Char ch = true := by
  refine ⟨r.get ⟨j, hj⟩, ?_, ?_⟩
  · rw [h.getElem hj]
    exact List.getElem?_eq_getElem hj
  · obtain ⟨-, hall, -, -, -⟩ := h
    rw [List.all_eq_true] at hall
    exact hall _ (List.get_mem r j hj)

theorem RunSound.bound {l : List Char} {d : Nat} {r : List Char}
    (h : RunSound l d r) : d + r.length ≤ l.length := by
  obtain ⟨hne, -, hslice, -, -⟩ := h
  have hlen := congrArg List.length hslice
  rw [List.length_take, List.length_drop] at hlen
  have h1 : 1 ≤ r.length := by
    cases r with
    | nil => exact absurd rfl hne
    | cons x xs => simp
  omega

/-- Any maximal run listed for a text of the form `a ++ m ++ b`, where `m` is
all-base58 and guarded on both sides by non-base58 characters (or text
edges), lies entirely inside `a`, entirely inside `b`, or is exactly `m`. -/
theorem runs_region {a m b : List Char} (hm : m.all base58Char = true)
    (hL : ∀ c, a.getLast? = some c → base58Char c = false)
    (hR : ∀ c, b.head? = some c → base58Char c = false)
    {i : Nat} {r : List Char} (h : (i, r) ∈ base58Runs (a ++ (m ++ b))) :
    i + r.length ≤ a.length ∨ a.length + m.length ≤ i ∨
      (i = a.length ∧ r = m) := by
  obtain ⟨d, hd, hs⟩ := runsAuxF_sound _ _ _ _ _ h
  rw [Nat.zero_add] at hd
  subst hd
  set T := a ++ (m ++ b) with hT
  have hTlen : T.length = a.length + (m.length + b.length) := by
    rw [hT, List.length_append, List.length_append]
  have hregion : ∀ j, j < m.length →
      ∃ ch, T[a.length + j]? = some ch ∧ base58Char ch = true := by
    intro j hj
    refine ⟨m.get ⟨j, hj⟩, ?_, ?_⟩
    · rw [hT, List.getElem?_append_right (Nat.le_add_right _ _),
        Nat.add_sub_cancel_left, List.getElem?_append_left hj]
      exact List.getElem?_eq_getElem hj
    · rw [List.all_eq_true] at hm
      exact hm _ (List.get_mem m j hj)
  by_contra hcontra
  push_neg at hcontra
  obtain ⟨hn1, hn2, hn3⟩ := hcontra
  have hrpos : 1 ≤ r.length := by
    obtain ⟨hne, -, -, -, -⟩ := hs
    cases r with
    | nil => exact absurd rfl hne
    | cons x xs => simp
  -- Step 1: the run cannot start strictly inside `a`.
  have hstep1 : a.length ≤ i := by
    by_contra hlt
    rw [Nat.not_le] at hlt
    have hapos : 1 ≤ a.length := by omega
    obtain ⟨ch, hch, hch58⟩ := hs.base58_at (j := a.length - 1 - i)
      (by omega)
    have hpos : i + (a.length - 1 - i) = a.length - 1 := by omega
    rw [hpos] at hch
    have hlast : T[a.length - 1]? = a.getLast? := by
      rw [hT, List.getElem?_append_left (by omega), List.getLast?_eq_getElem?]
    rw [hlast] at hch
    rw [hL ch hch] at hch58
    cases hch58
  -- Step 2: the run cannot start strictly inside `m`.
  have hstep2 : i ≤ a.length := by
    by_contra hgt
    rw [Nat.not_le] at hgt
    obtain ⟨-, -, -, hleft, -⟩ := hs
    rcases hleft with h0 | ⟨ch, hch, hch58⟩
    · omega
    · obtain ⟨ch2, hch2, hch258⟩ := hregion (i - 1 - a.length) (by omega)
      have hpos : a.length + (i - 1 - a.length) = i - 1 := by omega
      rw [hpos] at hch2
      rw [hch] at hch2
      injection hch2 with he
      rw [he] at hch58
      rw [hch58] at hch258
      cases hch258
  have hieq : i = a.length := by omega
  subst hieq
  -- Step 3: the run has exactly the region's length.
  have hlen : r.length = m.length := by
    rcases Nat.lt_trichotomy r.length m.length with hlt | heq | hgt
    · obtain ⟨-, -, -, -, hright⟩ := hs
      obtain ⟨ch, hch, hch58⟩ := hregion r.length hlt
      rw [hright ch hch] at hch58
      cases hch58
    · exact heq
    · obtain ⟨ch, hch, hch58⟩ := hs.base58_at (j := m.length) hgt
      have hbpos : 1 ≤ b.length := by
        have := hs.bound
        rw [hTlen] at this
        omega
      have hhead : T[a.length + m.length]? = b.head? := by
        rw [hT, List.getElem?_append_right (Nat.le_add_right _ _),
          Nat.add_sub_cancel_left,
          List.getElem?_append_right (Nat.le_refl _), Nat.sub_self]
        cases hb : b with
        | nil => rw [hb] at hbpos; cases hbpos
        | cons y ys => simp
      rw [hhead] at hch
      rw [hR ch hch] at hch58
      cases hch58
  -- Step 4: equal-length slices at the same position coincide.
  have hreq : r = m := by
    apply List.ext_getElem?
    intro n
    by_cases hn : n < r.length
    · have hmn : m[n]? = T[a.length + n]? := by
        rw [hT, List.getElem?_append_right (Nat.le_add_right _ _),
          Nat.add_sub_cancel_left, List.getElem?_append_left (by omega)]
      rw [hmn, hs.getElem hn]
    · rw [List.getElem?_eq_none (by omega), List.getElem?_eq_none (by omega)]
  exact hn3 rfl hreq

theorem takeWhile_append_of_all {p : Char → Bool} {l t : List Char}
    (h : ∀ x ∈ l, p x = true) : (l ++ t).takeWhile p = l ++ t.takeWhile p := by
  induction l with
  | nil => simp
  | cons c cs ih =>
    rw [List.cons_append, List.takeWhile_cons, if_pos (h c (by simp)),
      ih (fun x hx => h x (by simp [hx])), List.cons_append]

theorem dropWhile_append_of_all {p : Char → Bool} {l t : List Char}
    (h : ∀ x ∈ l, p x = true) : (l ++ t).dropWhile p = t.dropWhile p := by
  induction l with
  | nil => simp
  | cons c cs ih =>
    rw [List.cons_append, List.dropWhile_cons, if_pos (h c (by simp))]
    exact ih (fun x hx => h x (by simp [hx]))

theorem mem_of_mem_dedupSeen {α : Type _} [DecidableEq α] {x : α} :
    ∀ {seen l : List α}, x ∈ dedupSeen seen l → x ∈ l := by
  intro seen l
  induction l generalizing seen with
  | nil => intro h; cases h
  | cons y rest ih =>
    intro h
    rw [dedupSeen] at h
    split at h
    · exact List.mem_cons_of_mem _ (ih h)
    · rcases List.mem_cons.mp h with h1 | h2
      · exact h1 ▸ List.mem_cons_self _ _
      · exact List.mem_cons_of_mem _ (ih h2)

theorem mem_of_mem_firstDedup {α : Type _} [DecidableEq α] {x : α} {l : List α}
    (h : x ∈ firstDedup l) : x ∈ l :=
  mem_of_mem_dedupSeen h

theorem guard_of_getLast_eq (l : List Char) (x : Char)
    (hx : l.getLast? = some x) (hb : base58Char x = false) :
    ∀ c, l.getLast? = some c → base58Char c = false := by
  intro c hc
  rw [hx] at hc
  injection hc with h
  rw [← h]
  exact hb

theorem guard_of_head_eq (l : List Char) (x : Char)
    (hx : l.head? = some x) (hb : base58Char x = false) :
    ∀ c, l.head? = some c → base58Char c = false := by
  intro c hc
  rw [hx] at hc
  injection hc with h
  rw [← h]
  exact hb

/-- The run scanner on a text consisting of a single nonempty all-base58 run
between two spaces finds exactly that run, at index 1. -/
theorem runsAuxF_isolated (m : List Char) (hne : m ≠ [])
    (hm : m.all base58Char = true) :
    ∀ fuel : Nat, 3 ≤ fuel → runsAuxF fuel 0 (' ' :: (m ++ [' '])) = [(1, m)] := by
  intro fuel hfuel
  obtain ⟨f, rfl⟩ : ∃ f, fuel = (f + 1) + 1 + 1 := ⟨fuel - 3, by omega⟩
  obtain ⟨c, m', rfl⟩ : ∃ c m', m = c :: m' := by
    cases m with
    | nil => exact absurd rfl hne
    | cons c m' => exact ⟨c, m', rfl⟩
  rw [List.all_cons, Bool.and_eq_true] at hm
  have hm' : ∀ x ∈ m', base58Char x = true := List.all_eq_true.mp hm.2
  rw [runsAuxF, if_neg (by decide)]
  rw [List.cons_append, runsAuxF, if_pos hm.1]
  have htw : (m' ++ [' ']).takeWhile base58Char = m' := by
    rw [takeWhile_append_of_all hm']
    simp [List.takeWhile_cons, base58Char]
  have hdw : (m' ++ [' ']).dropWhile base58Char = [' '] := by
    rw [dropWhile_append_of_all hm']
    simp [List.dropWhile_cons, base58Char]
  rw [htw, hdw, runsAuxF, if_neg (by decide), runsAuxF]

/-- `isValidSolanaAddress` accepts every base58 list of length 32 to 44 that
is not purely numeric. -/
theorem isValidSolanaAddress_of (m : List Char) (h32 : 32 ≤ m.length)
    (h44 : m.length ≤ 44) (hm : m.all base58Char = true)
    (hdig : m.all digitChar = false) : isValidSolanaAddress m = true := by
  have hne : m.isEmpty = false := by
    cases m with
    | nil => simp at h32
    | cons c cs => rfl
  have c1 : (decide (m.length < 32) || decide (44 < m.length)) = false := by
    simp only [Bool.or_eq_false_iff, decide_eq_false_iff_not, Nat.not_lt]
    omega
  rw [isValidSolanaAddress, hne, c1, hm, hdig]
  simp

/-- Full extraction on a text consisting of one isolated, non-numeric base58
run of length 32 to 44 between two spaces: exactly that run is returned. -/
theorem extract_isolated (m : List Char) (h32 : 32 ≤ m.length)
    (h44 : m.length ≤ 44) (hm : m.all base58Char = true)
    (hdig : m.all digitChar = false) :
    extractSolanaAddressesWithBoundary (' ' :: (m ++ [' '])) = [m] := by
  have hne : m ≠ [] := by
    intro h
    rw [h] at h32
    simp at h32
  have hruns : base58Runs (' ' :: (m ++ [' '])) = [(1, m)] := by
    rw [base58Runs]
    exact runsAuxF_isolated m hne hm _ (by simp; omega)
  have hurl : isPartOfUrl (' ' :: (m ++ [' '])) 1 m.length = false := by
    have hafter : ((' ' :: (m ++ [' '])).drop (1 + m.length)).take 200 = [' '] := by
      have h1 : 1 + m.length = m.length + 1 := by omega
      rw [h1, List.drop_succ_cons, List.drop_left]
      rfl
    have himm : (' ' :: (m ++ [' '])).take 1 = [' '] := rfl
    rw [isPartOfUrl, hafter, himm]
    rw [if_neg (by decide)]
    decide
  have hval : isValidSolanaAddress m = true :=
    isValidSolanaAddress_of m h32 h44 hm hdig
  have hbc : (decide (32 ≤ m.length) && decide (m.length ≤ 44)) = true := by
    simp only [Bool.and_eq_true, decide_eq_true_eq]
    omega
  rw [extractSolanaAddressesWithBoundary, boundaryCandidates, hruns]
  rw [List.filter_cons, if_pos (by exact hbc), List.filter_nil]
  rw [List.filter_cons, if_pos (by rw [hval, hurl]; rfl), List.filter_nil]
  rfl

/-- C4, counterexample: a 44-character base58 run isolated between two spaces
for which `extractSolanaAddressesWithBoundary` nevertheless returns nothing —
the purely-numeric validity filter rejects it, so the claim's second part is
false as stated. -/
theorem claim_c4_counterexample :
    (lc "11111111111111111111111111111111111111111111").length = 44 ∧
    (lc "11111111111111111111111111111111111111111111").all base58Char = true ∧
    lc " 11111111111111111111111111111111111111111111 " =
      ' ' :: (lc "11111111111111111111111111111111111111111111" ++ [' ']) ∧
    extractSolanaAddressesWithBoundary
      (lc " 11111111111111111111111111111111111111111111 ") ≠
      [lc "11111111111111111111111111111111111111111111"] := by
  refine ⟨by decide, by decide, by decide, by decide⟩

/-- C4, amended.  First part (unchanged from the claim): for every text
containing a maximal base58 run of exactly 45 characters (non-base58 or text
edge on both sides), every address returned by
`extractSolanaAddressesWithBoundary` is a maximal run lying entirely before or
entirely after that 45-run — no address is taken from the run, in particular
no 44-character substring of it.  Second part (amended): a 44-character
base58 run isolated between two spaces is returned exactly, provided it is
not purely numeric (the `/^\d+$/` filter of `isValidSolanaAddress` otherwise
discards it). -/
theorem claim_c4_amended :
    (∀ a m b : List Char, m.length = 45 → m.all base58Char = true →
      (∀ c, a.getLast? = some c → base58Char c = false) →
      (∀ c, b.head? = some c → base58Char c = false) →
      ∀ addr ∈ extractSolanaAddressesWithBoundary (a ++ (m ++ b)),
        ∃ i, (i, addr) ∈ base58Runs (a ++ (m ++ b)) ∧
          (i + addr.length ≤ a.length ∨ a.length + 45 ≤ i)) ∧
    (∀ m : List Char, m.length = 44 → m.all base58Char = true →
      m.all digitChar = false →
      extractSolanaAddressesWithBoundary (' ' :: (m ++ [' '])) = [m]) := by
  constructor
  · intro a m b hm45 hm hL hR addr haddr
    have h1 := mem_of_mem_firstDedup haddr
    obtain ⟨p, hp, hpsnd⟩ := List.mem_map.mp h1
    obtain ⟨hpbc, -⟩ := List.mem_filter.mp hp
    obtain ⟨hpruns, hplen⟩ := List.mem_filter.mp hpbc
    rw [Bool.and_eq_true, decide_eq_true_eq, decide_eq_true_eq] at hplen
    obtain ⟨i, r⟩ := p
    simp only at hpsnd
    subst hpsnd
    refine ⟨i, hpruns, ?_⟩
    rcases runs_region hm hL hR hpruns with h | h | ⟨-, hrm⟩
    · exact Or.inl h
    · rw [hm45] at h
      exact Or.inr h
    · exfalso
      rw [hrm] at hplen
      simp only at hplen
      omega
  · intro m hm44 hm hdig
    exact extract_isolated m (by omega) (by omega) hm hdig

/-- C6: the domain recognizer returns exactly `["myname.sol"]` on
`"send to myname.sol please"`, and nothing on `"visit example.solutions"` —
`.sol` is only recognized when bounded by whitespace or string edges. -/
theorem claim_c6 :
    extractSolanaDomainsFromText (lc "send to myname.sol please") =
      [lc "myname.sol"] ∧
    extractSolanaDomainsFromText (lc "visit example.solutions") = [] := by
  refine ⟨by decide, by decide⟩

/-- Witness for C4 at concrete texts: a 45-character base58 run between two
spaces yields no address positioned inside it, and a concrete non-numeric
44-character base58 run between two spaces is returned exactly. -/
theorem claim_c4_witness :
    (∀ addr ∈ extractSolanaAddressesWithBoundary
        (lc " " ++ (lc "3Bm9MDZYtQksvsRDLDAKDYzEK3Ci3cjB5kXLCZgPDEK3a" ++ lc " ")),
      ∃ i, (i, addr) ∈ base58Runs
          (lc " " ++ (lc "3Bm9MDZYtQksvsRDLDAKDYzEK3Ci3cjB5kXLCZgPDEK3a" ++ lc " ")) ∧
        (i + addr.length ≤ (lc " ").length ∨ (lc " ").length + 45 ≤ i)) ∧
    extractSolanaAddressesWithBoundary
        (' ' :: (lc "3Bm9MDZYtQksvsRDLDAKDYzEK3Ci3cjB5kXLCZgPDEK3" ++ [' '])) =
      [lc "3Bm9MDZYtQksvsRDLDAKDYzEK3Ci3cjB5kXLCZgPDEK3"] := by
  constructor
  · exact claim_c4_amended.1 (lc " ")
      (lc "3Bm9MDZYtQksvsRDLDAKDYzEK3Ci3cjB5kXLCZgPDEK3a") (lc " ")
      (by decide) (by decide)
      (guard_of_getLast_eq _ ' ' (by decide) (by decide))
      (guard_of_head_eq _ ' ' (by decide) (by decide))
  · exact claim_c4_amended.2 (lc "3Bm9MDZYtQksvsRDLDAKDYzEK3Ci3cjB5kXLCZgPDEK3")
      (by decide) (by decide) (by decide)

/-- C5: for text `"see https://solscan.io/tx/<S> for details"` with `<S>` any
base58 run of length 32 to 44, `extractSolanaAddressesFromText` returns no
addresses: the URL-context filter (`/tx/` immediately before the candidate)
suppresses the signature even though it satisfies the length and alphabet
constraints. -/
theorem claim_c5 (S : List Char) (h32 : 32 ≤ S.length) (h44 : S.length ≤ 44)
    (hS : S.all base58Char = true) :
    (extractSolanaAddressesFromText
      (lc "see https://solscan.io/tx/" ++ (S ++ lc " for details"))).solanaAddresses
      = [] := by
  rw [extractSolanaAddressesFromText]
  show extractSolanaAddressesWithBoundary _ = []
  have hPlen : (lc "see https://solscan.io/tx/").length = 26 := by decide
  have hQlen : (lc " for details").length = 12 := by decide
  have hfilter : (boundaryCandidates
      (lc "see https://solscan.io/tx/" ++ (S ++ lc " for details"))).filter
        (fun p => isValidSolanaAddress p.2 &&
          !isPartOfUrl (lc "see https://solscan.io/tx/" ++ (S ++ lc " for details"))
            p.1 p.2.length) = [] := by
    rw [List.filter_eq_nil_iff]
    intro p hp
    obtain ⟨hpruns, hbc⟩ := List.mem_filter.mp hp
    rw [Bool.and_eq_true, decide_eq_true_eq, decide_eq_true_eq] at hbc
    have hL : ∀ c, (lc "see https://solscan.io/tx/").getLast? = some c →
        base58Char c = false :=
      guard_of_getLast_eq _ '/' (by decide) (by decide)
    have hR : ∀ c, (lc " for details").head? = some c → base58Char c = false :=
      guard_of_head_eq _ ' ' (by decide) (by decide)
    rcases runs_region hS hL hR hpruns with h | h | ⟨hi, hr⟩
    · exfalso
      rw [hPlen] at h
      omega
    · exfalso
      obtain ⟨d, hd, hsound⟩ := runsAuxF_sound _ _ _ _ _ hpruns
      have hbound := hsound.bound
      rw [Nat.zero_add] at hd
      rw [← hd] at hbound
      rw [List.length_append, List.length_append, hPlen, hQlen] at hbound
      rw [hPlen] at h
      omega
    · have htake : (lc "see https://solscan.io/tx/" ++ (S ++ lc " for details")).take 26 =
          lc "see https://solscan.io/tx/" := by
        rw [← hPlen]
        exact List.take_left _ _
      have hurl : isPartOfUrl
          (lc "see https://solscan.io/tx/" ++ (S ++ lc " for details"))
          p.1 p.2.length = true := by
        rw [hi, hPlen, isPartOfUrl, htake, if_pos]
        exact Or.inl (by decide)
      rw [hurl]
      simp
  rw [extractSolanaAddressesWithBoundary, hfilter]
  rfl

/-- Witness for C5 at a concrete 44-character base58 signature. -/
theorem claim_c5_witness :
    (extractSolanaAddressesFromText
      (lc "see https://solscan.io/tx/" ++
        (lc "3Bm9MDZYtQksvsRDLDAKDYzEK3Ci3cjB5kXLCZgPDEK3" ++
          lc " for details"))).solanaAddresses = [] :=
  claim_c5 (lc "3Bm9MDZYtQksvsRDLDAKDYzEK3Ci3cjB5kXLCZgPDEK3")
    (by decide) (by decide) (by decide)

/-! ### Batch Orchestrator (`parseMultipleUsers`, src/index.js:914-1056)

The network is modelled as an oracle: `fetch u a` is the result of attempt
number `a` (0-based) for target `u`.  Timestamps (wall-clock reads) and the
pacing waits are external effects with no bearing on the returned data and
are not modelled. -/

/-- The five progress-callback statuses (src/index.js:945,976,996,1013,1050). -/
inductive ProgressStatus
  | start
  | success
  | retry
  | error
  | complete
deriving DecidableEq, Repr

/-- One element of the returned `results` array.  A success push
(src/index.js:957-962) carries `username`, `success`, `data`; a terminal
failure push (src/index.js:1018-1024) carries `username`, `success`, `error`,
`retryAttempts`.  Fields absent from the pushed object are `none`. -/
structure BatchOutcome (R : Type _) where
  username : String
  success : Bool
  data : Option R
  error : Option String
  retryAttempts : Option Nat
deriving DecidableEq

/-- The per-target retry loop (`while (retryAttempts <= retryCount && !success)`,
src/index.js:953-1027): `attempt` is the 0-based attempt number, `remaining`
the retries still allowed.  Returns the outcome record pushed for the target
together with the progress statuses fired inside the loop (the `start` status
is fired by the caller before the loop). -/
def runUserAttempts {R : Type _} (username : String)
    (fetch : Nat → Except String R) :
    Nat → Nat → BatchOutcome R × List ProgressStatus
  | attempt, remaining =>
    match fetch attempt with
    | Except.ok v =>
      ({ username := username, success := true, data := some v,
         error := none, retryAttempts := none }, [ProgressStatus.success])
    | Except.error e =>
      match remaining with
      | 0 =>
        ({ username := username, success := false, data := none,
           error := some e, retryAttempts := some (attempt + 1) },
         [ProgressStatus.error])
      | rem + 1 =>
        ((runUserAttempts username fetch (attempt + 1) rem).1,
         ProgressStatus.retry :: (runUserAttempts username fetch (attempt + 1) rem).2)

/-- `parseMultipleUsers` (src/index.js:914-1056): sequentially process each
target with its own retry loop, pushing exactly one outcome per target, in
input order; fire `start` before each target's loop and one `complete` after
the whole batch. -/
def parseMultipleUsersModel {R : Type _} (fetch : String → Nat → Except String R)
    (retryCount : Nat) (usernames : List String) :
    List (BatchOutcome R) × List ProgressStatus :=
  (usernames.map (fun u => (runUserAttempts u (fetch u) 0 retryCount).1),
   (usernames.map (fun u =>
     ProgressStatus.start :: (runUserAttempts u (fetch u) 0 retryCount).2)).flatten
     ++ [ProgressStatus.complete])

theorem runUserAttempts_username {R : Type _} (u : String)
    (fetch : Nat → Except String R) :
    ∀ remaining attempt, (runUserAttempts u fetch attempt remaining).1.username = u := by
  intro remaining
  induction remaining with
  | zero =>
    intro attempt
    rw [runUserAttempts]
    cases fetch attempt <;> rfl
  | succ rem ih =>
    intro attempt
    rw [runUserAttempts]
    cases fetch attempt with
    | ok v => rfl
    | error e => exact ih (attempt + 1)

/-- C7: the batch operation is total — per-target failures become outcome
records, never exceptions — and returns exactly one outcome per target, in
input order: mapping each outcome to its target name gives back the input
list, for every oracle, retry budget and target list. -/
theorem claim_c7 {R : Type _} (fetch : String → Nat → Except String R)
    (retryCount : Nat) (usernames : List String) :
    (parseMultipleUsersModel fetch retryCount usernames).1.map
      BatchOutcome.username = usernames := by
  rw [parseMultipleUsersModel]
  induction usernames with
  | nil => rfl
  | cons u rest ih =>
    rw [List.map_cons, List.map_cons, runUserAttempts_username, ih]

/-- C2, counterexample: with `retryCount = 2` and a target failing on attempts
0 and 1 and succeeding on attempt 2, the outcome is a success record, but it
carries no `retryAttempts` field at all (the success push at
src/index.js:957-962 has no such key) — not `retryAttempts = 2` as claimed. -/
theorem claim_c2_counterexample :
    ((parseMultipleUsersModel
      (fun _ n => if n < 2 then Except.error "boom" else Except.ok 7)
      2 ["alice"]).1.map (fun o => (o.success, o.retryAttempts))) = [(true, none)] ∧
    ((parseMultipleUsersModel
      (fun _ n => if n < 2 then Except.error "boom" else Except.ok 7)
      2 ["alice"]).1.map (fun o => o.retryAttempts)) ≠ [some 2] := by
  refine ⟨by decide, by decide⟩

/-- C2, amended: with `retryCount = 2`, a target whose attempts 0 and 1 fail
and whose attempt 2 succeeds yields a success outcome carrying the data and no
`retryAttempts` field (the field exists only on failure records), and the
progress statuses for the batch are exactly
`start, retry, retry, success, complete` — in particular the target sees
`start`, `retry`, `retry`, `success` in that order. -/
theorem claim_c2_amended {R : Type _} (u : String)
    (fetch : String → Nat → Except String R) (m1 m2 : String) (v : R)
    (h0 : fetch u 0 = Except.error m1) (h1 : fetch u 1 = Except.error m2)
    (h2 : fetch u 2 = Except.ok v) :
    parseMultipleUsersModel fetch 2 [u] =
      ([{ username := u, success := true, data := some v,
          error := none, retryAttempts := none }],
       [ProgressStatus.start, ProgressStatus.retry, ProgressStatus.retry,
        ProgressStatus.success, ProgressStatus.complete]) := by
  simp only [parseMultipleUsersModel, List.map_cons, List.map_nil,
    runUserAttempts, h0, h1, h2]
  rfl

/-- Witness for C2 at a concrete oracle failing twice then succeeding. -/
theorem claim_c2_witness :
    parseMultipleUsersModel
      (fun _ n => if n < 2 then Except.error "boom" else Except.ok 7)
      2 ["alice"] =
      ([{ username := "alice", success := true, data := some 7,
          error := none, retryAttempts := none }],
       [ProgressStatus.start, ProgressStatus.retry, ProgressStatus.retry,
        ProgressStatus.success, ProgressStatus.complete]) :=
  claim_c2_amended "alice"
    (fun _ n => if n < 2 then Except.error "boom" else Except.ok 7)
    "boom" "boom" 7 rfl rfl rfl

/-! ### Pagination Aggregator (`parseMultiPagePost`, src/index.js:375-526)

Only the merge step (src/index.js:500-517) is data-relevant: page fetching and
per-page reply assembly feed it the per-page reply collections. -/

/-- A reply's author reference (src/index.js:278-282). -/
structure ReplyAuthor where
  name : String
  id : String
  avatar : String
deriving DecidableEq

/-- A reply record as assembled per page (src/index.js:275-290); fields not
touched by the merge are carried opaquely. -/
structure Reply where
  id : String
  floor : String
  author : ReplyAuthor
  content : String
deriving DecidableEq

/-- The post fields rewritten by the merge (src/index.js:512-517). -/
structure MergedPost where
  replies : List Reply
  replyUserIds : List String
  replyCount : Nat
  totalFloors : Nat
  totalPages : Nat
deriving DecidableEq

/-- The merge of `parseMultiPagePost` (src/index.js:500-517): concatenate
page-1 replies with the later pages' replies in page order, collect the
distinct non-empty reply-author ids (page-1's exposed id list first, then
first occurrences in reply order, as a JavaScript `Set` preserves insertion
order), and recompute the statistics from the concatenated list. -/
def mergeMultiPagePost (page1Replies : List Reply) (page1UserIds : List String)
    (laterPageReplies : List (List Reply)) (totalPages : Nat) : MergedPost :=
  { replies := page1Replies ++ laterPageReplies.flatten
    replyUserIds := firstDedup (page1UserIds ++
      ((page1Replies ++ laterPageReplies.flatten).filterMap
        (fun r => if r.author.id = "" then none else some r.author.id)))
    replyCount := (page1Replies ++ laterPageReplies.flatten).length
    totalFloors := (page1Replies ++ laterPageReplies.flatten).length + 1
    totalPages := totalPages }

/-- C1, counterexample: pages contributing 5, 5 and 3 replies where reply id
`"1"` appears on page 1 and again on page 2.  The merge keeps both records —
duplicate reply ids are not removed (only reply-author ids are deduplicated)
— so the claim that the merged replies contain no two records with the same
reply id is false on the code. -/
theorem claim_c1_counterexample :
    ((mergeMultiPagePost
      [⟨"1", "1", ⟨"a", "a", ""⟩, "x"⟩, ⟨"2", "2", ⟨"b", "b", ""⟩, "x"⟩,
       ⟨"3", "3", ⟨"c", "c", ""⟩, "x"⟩, ⟨"4", "4", ⟨"d", "d", ""⟩, "x"⟩,
       ⟨"5", "5", ⟨"e", "e", ""⟩, "x"⟩]
      []
      [[⟨"1", "1", ⟨"a", "a", ""⟩, "x"⟩, ⟨"6", "6", ⟨"f", "f", ""⟩, "x"⟩,
        ⟨"7", "7", ⟨"g", "g", ""⟩, "x"⟩, ⟨"8", "8", ⟨"h", "h", ""⟩, "x"⟩,
        ⟨"9", "9", ⟨"i", "i", ""⟩, "x"⟩],
       [⟨"10", "10", ⟨"j", "j", ""⟩, "x"⟩, ⟨"11", "11", ⟨"k", "k", ""⟩, "x"⟩,
        ⟨"12", "12", ⟨"m", "m", ""⟩, "x"⟩]]
      3).replies.map Reply.id).count "1" = 2 := by
  decide

/-- C1, amended: for a three-page merge contributing 5, 5 and 3 replies, the
merged result has `replyCount = 13` and `totalFloors = 14`, and the merged
reply list is exactly page 1 followed by pages 2 and 3 in ascending page
order — duplicate reply records are retained as-is (deduplication applies
only to the reply-author id list, not to reply ids). -/
theorem claim_c1_amended (p1 p2 p3 : List Reply) (ids1 : List String)
    (h1 : p1.length = 5) (h2 : p2.length = 5) (h3 : p3.length = 3) :
    (mergeMultiPagePost p1 ids1 [p2, p3] 3).replyCount = 13 ∧
    (mergeMultiPagePost p1 ids1 [p2, p3] 3).totalFloors = 14 ∧
    (mergeMultiPagePost p1 ids1 [p2, p3] 3).replies = p1 ++ (p2 ++ p3) := by
  have hflat : ([p2, p3] : List (List Reply)).flatten = p2 ++ (p3 ++ []) := rfl
  have hlen : (p1 ++ ([p2, p3] : List (List Reply)).flatten).length = 13 := by
    rw [hflat, List.length_append, List.length_append, List.length_append]
    simp [h1, h2, h3]
  refine ⟨?_, ?_, ?_⟩
  · rw [mergeMultiPagePost]
    exact hlen
  · rw [mergeMultiPagePost]
    rw [hlen]
  · rw [mergeMultiPagePost]
    rw [hflat]
    simp

/-- Witness for C1 at concrete pages of sizes 5, 5 and 3. -/
theorem claim_c1_witness :
    (mergeMultiPagePost
      [⟨"1", "1", ⟨"a", "a", ""⟩, "x"⟩, ⟨"2", "2", ⟨"b", "b", ""⟩, "x"⟩,
       ⟨"3", "3", ⟨"c", "c", ""⟩, "x"⟩, ⟨"4", "4", ⟨"d", "d", ""⟩, "x"⟩,
       ⟨"5", "5", ⟨"e", "e", ""⟩, "x"⟩]
      ["a"]
      [[⟨"6", "6", ⟨"f", "f", ""⟩, "x"⟩, ⟨"7", "7", ⟨"g", "g", ""⟩, "x"⟩,
        ⟨"8", "8", ⟨"h", "h", ""⟩, "x"⟩, ⟨"9", "9", ⟨"i", "i", ""⟩, "x"⟩,
        ⟨"10", "10", ⟨"j", "j", ""⟩, "x"⟩],
       [⟨"11", "11", ⟨"k", "k", ""⟩, "x"⟩, ⟨"12", "12", ⟨"m", "m", ""⟩, "x"⟩,
        ⟨"13", "13", ⟨"n", "n", ""⟩, "x"⟩]]
      3).replyCount = 13 :=
  (claim_c1_amended _ _ _ ["a"] (by decide) (by decide) (by decide)).1

/-! ### Page Result Assembler dispatch (`parseV2exPage`, src/index.js:21-41) -/

/-- The two assembled page kinds. -/
inductive PageKind
  | profile
  | post
deriving DecidableEq

/-- The classification failure of src/index.js:36 (`不支持的页面类型`). -/
inductive ParseError
  | unsupportedPageKind
deriving DecidableEq

/-- The page-type dispatch of `parseV2exPage` (src/index.js:31-37): a URL
containing `/member/` is parsed as a user-info page; otherwise a URL
containing `/t/` is parsed as a post page; otherwise the unsupported-page-kind
error is thrown. -/
def classifyUrl (url : List Char) : Except ParseError PageKind :=
  if containsSub (lc "/member/") url = true then Except.ok PageKind.profile
  else if containsSub (lc "/t/") url = true then Except.ok PageKind.post
  else Except.error ParseError.unsupportedPageKind

/-- C8: a URL containing neither the profile segment `/member/` nor the
thread segment `/t/` fails with the unsupported-page-kind error (no result is
produced); a URL containing `/member/` is dispatched to profile assembly, and
a URL containing `/t/` (and not `/member/`, which takes precedence in the
if/else chain) to post assembly. -/
theorem claim_c8 (url : List Char) :
    (containsSub (lc "/member/") url = false →
      containsSub (lc "/t/") url = false →
      classifyUrl url = Except.error ParseError.unsupportedPageKind) ∧
    (containsSub (lc "/member/") url = true →
      classifyUrl url = Except.ok PageKind.profile) ∧
    (containsSub (lc "/member/") url = false →
      containsSub (lc "/t/") url = true →
      classifyUrl url = Except.ok PageKind.post) := by
  refine ⟨?_, ?_, ?_⟩
  · intro hm ht
    rw [classifyUrl, if_neg (by rw [hm]; simp), if_neg (by rw [ht]; simp)]
  · intro hm
    rw [classifyUrl, if_pos hm]
  · intro hm ht
    rw [classifyUrl, if_neg (by rw [hm]; simp), if_pos ht]

/-- Witness for C8 at three concrete URLs. -/
theorem claim_c8_witness :
    classifyUrl (lc "https://v2ex.com/about") =
      Except.error ParseError.unsupportedPageKind ∧
    classifyUrl (lc "https://v2ex.com/member/alice") = Except.ok PageKind.profile ∧
    classifyUrl (lc "https://v2ex.com/t/12345") = Except.ok PageKind.post :=
  ⟨(claim_c8 (lc "https://v2ex.com/about")).1 (by decide) (by decide),
   (claim_c8 (lc "https://v2ex.com/member/alice")).2.1 (by decide),
   (claim_c8 (lc "https://v2ex.com/t/12345")).2.2 (by decide) (by decide)⟩

/-! ### Profile-page Solana extraction (`extractSolanaAddress`, src/index.js:533-559) -/

/-- Match `/const address = "([A-Za-z0-9]{32,44})"/` at the head of the
script text: the literal prefix, then a maximal alphanumeric run of length
32 to 44 closed by a double quote (greediness plus the closing-quote literal
force the captured run to be the whole maximal run). -/
def constAddrAt (l : List Char) : Option (List Char) :=
  if (lc "const address = \"").isPrefixOf l then
    if 32 ≤ ((l.drop (lc "const address = \"").length).takeWhile alnumChar).length ∧
        ((l.drop (lc "const address = \"").length).takeWhile alnumChar).length ≤ 44 ∧
        ((l.drop (lc "const address = \"").length).dropWhile alnumChar).head? = some '\"' then
      some ((l.drop (lc "const address = \"").length).takeWhile alnumChar)
    else none
  else none

/-- `scriptContent.match(/const address = "([A-Za-z0-9]{32,44})"/)`: the first
match, scanning left to right (src/index.js:541). -/
def scriptAddressMatch : List Char → Option (List Char)
  | [] => none
  | c :: rest =>
    match constAddrAt (c :: rest) with
    | some a => some a
    | none => scriptAddressMatch rest

theorem constAddrAt_length {l a : List Char} (h : constAddrAt l = some a) :
    32 ≤ a.length := by
  rw [constAddrAt] at h
  split at h
  · split at h
    · rename_i hcond
      injection h with ha
      rw [← ha]
      exact hcond.1
    · cases h
  · cases h

theorem scriptAddressMatch_length {s a : List Char}
    (h : scriptAddressMatch s = some a) : 32 ≤ a.length := by
  induction s with
  | nil => cases h
  | cons c rest ih =>
    rw [scriptAddressMatch] at h
    cases hc : constAddrAt (c :: rest) with
    | some b =>
      rw [hc] at h
      injection h with hb
      rw [← hb]
      exact constAddrAt_length hc
    | none =>
      rw [hc] at h
      exact ih h

/-- Scheme test of the transaction-URL patterns: `https?:\/\/`,
case-insensitively; returns the scheme length. -/
def txSchemeLen (l : List Char) : Option Nat :=
  if (lc "https://").isPrefixOf (lowerAll l) then some 8
  else if (lc "http://").isPrefixOf (lowerAll l) then some 7
  else none

/-- Match one transaction-URL pattern
(`https?:\/\/[^\s]*\/(alt)\/[^\s]*`, case-insensitive) at the head of the
text: a scheme followed by a non-whitespace run containing one of the `alts`;
the whole match extends to the end of the non-whitespace run.  On success,
return the remainder after the match. -/
def txPatternTail (alts : List (List Char)) (l : List Char) : Option (List Char) :=
  match txSchemeLen l with
  | none => none
  | some n =>
    if alts.any (fun a =>
        containsSub a (lowerAll ((l.drop n).takeWhile (fun c => !jsSpace c)))) then
      some ((l.drop n).dropWhile (fun c => !jsSpace c))
    else none

def removeTxF (alts : List (List Char)) : Nat → List Char → List Char
  | _, [] => []
  | 0, l => l
  | fuel + 1, c :: rest =>
    match txPatternTail alts (c :: rest) with
    | some rem => ' ' :: removeTxF alts fuel rem
    | none => c :: removeTxF alts fuel rest

/-- The alternatives of the first pattern of
`removeUrlTransactionSignatures` (src/index.js:581), lower-cased. -/
def txAlts1 : List (List Char) := [lc "/tx/", lc "/transaction/", lc "/confirmtransaction/"]

/-- The `/txs/` pattern alternatives (src/index.js:582). -/
def txAlts2 : List (List Char) := [lc "/txs/"]

/-- `removeUrlTransactionSignatures` (src/index.js:578-589): replace every
match of the two transaction-URL patterns, in sequence, by a single space. -/
def removeUrlTransactionSignatures (text : List Char) : List Char :=
  removeTxF txAlts2 (removeTxF txAlts1 text.length text).length
    (removeTxF txAlts1 text.length text)

/-- The result record of `extractSolanaAddress` (src/index.js:534-537). -/
structure SolanaInfo where
  solanaAddress : Option (List Char)
  solanaDomain : Option (List Char)
deriving DecidableEq

/-- `extractSolanaAddress` (src/index.js:533-559): prefer the script-embedded
address; otherwise the first boundary-extracted address of the sanitized page
text; otherwise none.  The domain is the first extracted domain of the raw
page text, otherwise none. -/
def extractSolanaAddress (scriptContent pageText : List Char) : SolanaInfo :=
  { solanaAddress :=
      match scriptAddressMatch scriptContent with
      | some a => some a
      | none =>
        (extractSolanaAddressesWithBoundary
          (removeUrlTransactionSignatures pageText)).head?
    solanaDomain := (extractSolanaDomainsFromText pageText).head? }

theorem isValidSolanaAddress_ne_nil {a : List Char}
    (h : isValidSolanaAddress a = true) : a ≠ [] := by
  intro hnil
  rw [hnil] at h
  cases h

theorem mem_extract_valid {t addr : List Char}
    (h : addr ∈ extractSolanaAddressesWithBoundary t) :
    isValidSolanaAddress addr = true := by
  have h1 := mem_of_mem_firstDedup h
  obtain ⟨p, hp, hpsnd⟩ := List.mem_map.mp h1
  obtain ⟨-, hpred⟩ := List.mem_filter.mp hp
  rw [Bool.and_eq_true] at hpred
  rw [← hpsnd]
  exact hpred.1

theorem mem_domains_ne_nil {t d : List Char}
    (h : d ∈ extractSolanaDomainsFromText t) : d ≠ [] := by
  have h1 := mem_of_mem_firstDedup h
  obtain ⟨-, hpred⟩ := List.mem_filter.mp h1
  rw [Bool.and_eq_true, Bool.and_eq_true] at hpred
  have hlen := hpred.1.1
  rw [decide_eq_true_eq] at hlen
  intro hnil
  rw [hnil] at hlen
  simp at hlen

/-- C10: the assembled profile exposes at most one address and at most one
domain.  `solanaAddress` is the script-embedded address when the script regex
matches, otherwise the first recognized address of the sanitized page text in
page-text order, otherwise `none`; `solanaDomain` is the first recognized
domain, otherwise `none`; every exposed value is a nonempty string (further
recognized addresses and domains are discarded by the `head?` selection). -/
theorem claim_c10 (scriptContent pageText : List Char) :
    (∀ a, scriptAddressMatch scriptContent = some a →
      (extractSolanaAddress scriptContent pageText).solanaAddress = some a) ∧
    (scriptAddressMatch scriptContent = none →
      (extractSolanaAddress scriptContent pageText).solanaAddress =
        (extractSolanaAddressesWithBoundary
          (removeUrlTransactionSignatures pageText)).head?) ∧
    ((extractSolanaAddress scriptContent pageText).solanaDomain =
      (extractSolanaDomainsFromText pageText).head?) ∧
    (∀ a, (extractSolanaAddress scriptContent pageText).solanaAddress = some a →
      a ≠ []) ∧
    (∀ d, (extractSolanaAddress scriptContent pageText).solanaDomain = some d →
      d ≠ []) := by
  refine ⟨?_, ?_, rfl, ?_, ?_⟩
  · intro a ha
    rw [extractSolanaAddress]
    simp only [ha]
  · intro hnone
    rw [extractSolanaAddress]
    simp only [hnone]
  · intro a ha
    rw [extractSolanaAddress] at ha
    cases hs : scriptAddressMatch scriptContent with
    | some b =>
      simp only [hs] at ha
      have hlen := scriptAddressMatch_length hs
      intro hnil
      injection ha with hba
      rw [hba, hnil] at hlen
      simp at hlen
    | none =>
      simp only [hs] at ha
      have hmem : a ∈ extractSolanaAddressesWithBoundary
          (removeUrlTransactionSignatures pageText) :=
        List.mem_of_mem_head? (Option.mem_def.mpr ha)
      exact isValidSolanaAddress_ne_nil (mem_extract_valid hmem)
  · intro d hd
    rw [extractSolanaAddress] at hd
    simp only at hd
    have hmem : d ∈ extractSolanaDomainsFromText pageText :=
      List.mem_of_mem_head? (Option.mem_def.mpr hd)
    exact mem_domains_ne_nil hmem

/-- Witness for C10 at a concrete script (whose embedded address wins) and a
concrete page text carrying a domain. -/
theorem claim_c10_witness :
    (extractSolanaAddress
      (lc "var x = 1; const address = \"3Bm9MDZYtQksvsRDLDAKDYzEK3Ci3cjB5kXLCZgPDEK3\"; run();")
      (lc "pay me at myname.sol thanks")).solanaAddress =
      some (lc "3Bm9MDZYtQksvsRDLDAKDYzEK3Ci3cjB5kXLCZgPDEK3") :=
  (claim_c10
    (lc "var x = 1; const address = \"3Bm9MDZYtQksvsRDLDAKDYzEK3Ci3cjB5kXLCZgPDEK3\"; run();")
    (lc "pay me at myname.sol thanks")).1
    (lc "3Bm9MDZYtQksvsRDLDAKDYzEK3Ci3cjB5kXLCZgPDEK3") (by decide)

end V2ex
